import Mathlib

set_option maxRecDepth 40000

/-!
Verification of the netscan network scanner (Go) against its design
specification.  The Go sources are shallowly embedded: pure string and
list manipulation functions are translated directly; network effects
(dialing, reading from a connection) are represented by explicit
environment parameters and event traces; the concurrent batch scheduler
is modelled as a small-step transition system.

String handling note: the Go code works on byte strings of ASCII network
data.  Strings are modelled as Lean String values and manipulated through
their underlying character lists, with the Go standard library helpers
(strings.Split, strings.TrimSpace, strings.HasSuffix, strconv.Atoi,
fmt.Sscanf) re-implemented below on character lists so that every
definition is executable by the kernel.
-/

/-! ## Character and string primitives (models of Go strings/strconv/fmt helpers) -/

/-- Whitespace predicate used by Go strings.TrimSpace (ASCII subset). -/
def wsp (c : Char) : Bool :=
  c = ' ' || c = '\t' || c = '\n' || c = '\x0B' || c = '\x0C' || c = '\r'

/-- Model of Go strings.Split with a single-character separator, on char lists. -/
def splitChar (sep : Char) : List Char → List (List Char)
  | [] => [[]]
  | c :: rest =>
    match splitChar sep rest with
    | [] => [[]]
    | g :: gs => if c = sep then [] :: g :: gs else (c :: g) :: gs

/-- Model of Go strings.Split with a single-character separator. -/
def splitStr (s : String) (sep : Char) : List String :=
  (splitChar sep s.data).map String.mk

/-- Trim leading and trailing whitespace from a char list (Go strings.TrimSpace). -/
def trimChars (cs : List Char) : List Char :=
  ((cs.dropWhile wsp).reverse.dropWhile wsp).reverse

/-- Model of Go strings.TrimSpace. -/
def strTrim (s : String) : String := String.mk (trimChars s.data)

/-- Model of Go strings.HasSuffix for the three-character suffix "/24". -/
def hasSuffix24 (s : String) : Bool :=
  decide (3 ≤ s.data.length) && decide (s.data.drop (s.data.length - 3) = ['/', '2', '4'])

/-- Model of Go strings.TrimSuffix for the suffix "/24" (drops the last three
characters when the suffix is present). -/
def trimSuffix24 (s : String) : String :=
  if hasSuffix24 s then String.mk (s.data.take (s.data.length - 3)) else s

/-- Value of a list of decimal digit characters (most significant first). -/
def digitsVal (cs : List Char) : Nat :=
  cs.foldl (fun acc c => acc * 10 + (c.toNat - 48)) 0

/-- Model of Go strconv.Atoi: an optional sign followed by one or more digits,
consuming the whole string; none on any other input. -/
def atoiM (s : String) : Option Int :=
  match s.data with
  | '-' :: rest =>
      if rest ≠ [] ∧ rest.all Char.isDigit then some (-(digitsVal rest : Int)) else none
  | '+' :: rest =>
      if rest ≠ [] ∧ rest.all Char.isDigit then some ((digitsVal rest : Int)) else none
  | cs =>
      if cs ≠ [] ∧ cs.all Char.isDigit then some ((digitsVal cs : Int)) else none

/-- Model of scanning one integer with fmt.Sscanf and verb "%d": skip leading
whitespace, read an optional sign and a maximal run of digits.  When no digit
is found the scan fails and the target variable keeps its zero value, so the
model returns 0 in that case, exactly as the Go code observes. -/
def sscanfD (s : String) : Int :=
  let cs := s.data.dropWhile wsp
  match cs with
  | '-' :: rest =>
      let ds := rest.takeWhile Char.isDigit
      if ds = [] then 0 else -(digitsVal ds : Int)
  | '+' :: rest =>
      let ds := rest.takeWhile Char.isDigit
      if ds = [] then 0 else (digitsVal ds : Int)
  | _ =>
      let ds := cs.takeWhile Char.isDigit
      if ds = [] then 0 else (digitsVal ds : Int)

/-! ## Target Enumerator: utils.GenerateIPs (src/unnamed/part_002 lines 10-26,
identical copies generateIPs in src/scanner/discovery.go and src/main.go) -/

/-- Model of GenerateIPs: for a specification ending in "/24" whose base has
exactly four dot-separated fields, emit the 254 host addresses with last octet
1..254; otherwise the empty list (the Go code signals no error). -/
def GenerateIPs (network : String) : List String :=
  if hasSuffix24 network then
    match splitStr (trimSuffix24 network) '.' with
    | [b0, b1, b2, _b3] =>
        (List.range' 1 254).map (fun i => b0 ++ "." ++ b1 ++ "." ++ b2 ++ "." ++ toString i)
    | _ => []
  else []

/-! ## Address comparator: utils.CompareIPs (src/unnamed/part_002 lines 29-43,
identical copies compareIPs in src/scanner/discovery.go and src/main.go) -/

/-- The loop body of CompareIPs: compare fields at positions i, i+1, ... while
k positions remain, returning at the first numerically different pair.  Fields
are read through the Sscanf "%d" model.  The Go code indexes parts[i] for
i < 4 unconditionally (it would panic on fewer than four fields); here a
missing field reads as the empty string, which scans to 0 - the theorems below
are only about genuine four-field dotted quads. -/
def compareIdx (p1 p2 : List String) (i : Nat) : Nat → Bool
  | 0 => false
  | k + 1 =>
    let n1 := sscanfD (p1.getD i "")
    let n2 := sscanfD (p2.getD i "")
    if n1 = n2 then compareIdx p1 p2 (i + 1) k else decide (n1 < n2)

/-- Model of CompareIPs: numeric octet-by-octet comparison of two dotted-quad
strings, true when ip1 sorts strictly before ip2. -/
def CompareIPs (ip1 ip2 : String) : Bool :=
  compareIdx (splitStr ip1 '.') (splitStr ip2 '.') 0 4

/-! ## Port-range parser: utils.ParsePortRange (src/unnamed/part_002 lines
46-72, identical copy parsePortRange in src/main.go) -/

/-- The inclusive integer range a, a+1, ..., b emitted by the Go loop
for i := start; i <= end; i++ . -/
def intRange (a b : Int) : List Int :=
  (List.range (b + 1 - a).toNat).map (fun (k : Nat) => a + (k : Int))

/-- Model of ParsePortRange.  A string containing a dash is treated as a
range "start-end": both bounds are trimmed and parsed with Atoi and the full
inclusive range is emitted with no bound check against [1, 65535].  Any other
string is treated as comma-separated ports, each kept only when it parses and
lies in [1, 65535]. -/
def ParsePortRange (portRange : String) : List Int :=
  if portRange.data.contains '-' then
    match splitStr portRange '-' with
    | [p1, p2] =>
        match atoiM (strTrim p1), atoiM (strTrim p2) with
        | some s, some e => if s ≤ e then intRange s e else []
        | _, _ => []
    | _ => []
  else
    (splitStr portRange ',').filterMap (fun t =>
      match atoiM (strTrim t) with
      | some n => if 0 < n ∧ n ≤ 65535 then some n else none
      | none => none)

/-! ## Banner Reader: banner.GrabBanner and banner.GrabBannerFast
(src/pkg/banner/banner.go lines 10-41 and 44-78, the latter also copied as
grabBannerFast in src/scanner/discovery.go).

A connection is modelled by what a single Read call on it would deliver:
none for a read error, some raw for raw bytes (the Read call itself caps the
delivered bytes at the buffer size).  Each banner function also returns the
trace of network operations it performed on the connection, so that claims
about stimuli written and reads attempted are statable. -/

/-- An established TCP connection, abstracted to the outcome of reading it. -/
structure Conn where
  readData : Option String
deriving DecidableEq, Repr

/-- Network operations a banner function can perform on the connection. -/
inductive NetEvent where
  | setReadDeadline (ms : Nat)
  | write (data : String)
  | readAttempt (bufSize : Nat)
deriving DecidableEq, Repr

/-- The HTTP stimulus of the thorough profile. -/
def httpProbeThorough : String := "GET / HTTP/1.0\r\n\r\n"

/-- The HTTP stimulus of the fast profile. -/
def httpProbeFast : String := "GET / HTTP/1.1\r\nHost: \r\nConnection: close\r\n\r\n"

/-- First normalization pass: strings.ReplaceAll(banner, crlf, space) -
every carriage-return/line-feed pair becomes one space, left to right. -/
def collapseCRLF : List Char → List Char
  | [] => []
  | '\r' :: '\n' :: rest => ' ' :: collapseCRLF rest
  | c :: rest => c :: collapseCRLF rest

/-- Second normalization pass: strings.ReplaceAll(banner, lf, space). -/
def lfToSpace (cs : List Char) : List Char :=
  cs.map (fun c => if c = '\n' then ' ' else c)

/-- Length-limiting step: banner[:bound] + "..." when the banner exceeds the
profile bound. -/
def truncTo (bound : Nat) (cs : List Char) : List Char :=
  if bound < cs.length then cs.take bound ++ ['.', '.', '.'] else cs

/-- The two ReplaceAll passes followed by TrimSpace. -/
def normalizeRaw (cs : List Char) : List Char :=
  trimChars (lfToSpace (collapseCRLF cs))

/-- Full post-read processing of a banner for a given profile bound. -/
def normalizeBanner (bound : Nat) (raw : List Char) : List Char :=
  truncTo bound (normalizeRaw raw)

/-- Model of GrabBanner (thorough profile): 2 s read deadline, HTTP stimulus
on ports 80/8080, then a read into a 1024-byte buffer; the result is
normalized and truncated at 50 characters.  Note there is no case for port
443 in this profile: the read is attempted for every port. -/
def GrabBanner (conn : Conn) (port : Int) : String × List NetEvent :=
  let evs := [NetEvent.setReadDeadline 2000]
    ++ (if port = 80 ∨ port = 8080 then [NetEvent.write httpProbeThorough] else [])
    ++ [NetEvent.readAttempt 1024]
  match conn.readData with
  | none => ("", evs)
  | some raw => (String.mk (normalizeBanner 50 (raw.data.take 1024)), evs)

/-- Model of GrabBannerFast (fast profile): 500 ms read deadline; port 443
returns an empty banner before any stimulus or read; HTTP stimulus on ports
80/8080; read into a 512-byte buffer; truncation at 40 characters. -/
def GrabBannerFast (conn : Conn) (port : Int) : String × List NetEvent :=
  if port = 443 then ("", [NetEvent.setReadDeadline 500])
  else
    let evs := [NetEvent.setReadDeadline 500]
      ++ (if port = 80 ∨ port = 8080 then [NetEvent.write httpProbeFast] else [])
      ++ [NetEvent.readAttempt 512]
    match conn.readData with
    | none => ("", evs)
    | some raw => (String.mk (normalizeBanner 40 (raw.data.take 512)), evs)

/-! ## Data model: models.PortResult, models.HostResult, models.CommonServices
(src/unnamed/part_000; identical table commonServices in
src/scanner/discovery.go and src/main.go).  Latency is carried in
milliseconds; only PingSweep fills it, from its timing environment. -/

structure PortResult where
  Port : Int
  Open : Bool
  Service : String := ""
  Banner : String := ""
deriving DecidableEq, Repr

structure HostResult where
  IP : String
  Alive : Bool
  Ports : List PortResult := []
  LatencyMs : Nat := 0
deriving DecidableEq, Repr

instance : Inhabited HostResult := ⟨{ IP := "", Alive := false }⟩

/-- The static, read-only port-to-service table. -/
def CommonServices : List (Int × String) :=
  [(21, "FTP"), (22, "SSH"), (23, "Telnet"), (25, "SMTP"), (53, "DNS"),
   (80, "HTTP"), (110, "POP3"), (135, "RPC"), (139, "NetBIOS"), (143, "IMAP"),
   (443, "HTTPS"), (445, "SMB"), (993, "IMAPS"), (995, "POP3S"),
   (1433, "MSSQL"), (3306, "MySQL"), (3389, "RDP"), (5432, "PostgreSQL"),
   (5900, "VNC"), (6379, "Redis"), (8080, "HTTP-Alt"), (9200, "Elasticsearch")]

/-- Go map read CommonServices[port]: the zero value "" when the key is
absent. -/
def serviceFor (port : Int) : String := (CommonServices.lookup port).getD ""

/-! ## Port Prober: ScanPort and ScanPortFast (src/unnamed/part_001 lines
64-105; scanPortFast also copied in src/scanner/discovery.go, scanPort in
src/main.go).  The outcome of net.DialTimeout for a given (host, port) is
supplied by the environment dialEnv: none models any connection failure
(refused, timeout, unreachable), some conn a successful connection. -/

/-- Model of ScanPort (3 s dial timeout, thorough banner grab). -/
def ScanPort (dialEnv : String → Int → Option Conn) (host : String) (port : Int) : PortResult :=
  match dialEnv host port with
  | none => { Port := port, Open := false }
  | some conn =>
      { Port := port, Open := true, Service := serviceFor port,
        Banner := (GrabBanner conn port).1 }

/-- Model of ScanPortFast (1 s dial timeout, fast banner grab). -/
def ScanPortFast (dialEnv : String → Int → Option Conn) (host : String) (port : Int) : PortResult :=
  match dialEnv host port with
  | none => { Port := port, Open := false }
  | some conn =>
      { Port := port, Open := true, Service := serviceFor port,
        Banner := (GrabBannerFast conn port).1 }

/-! ## Liveness Prober: PingHostFast (src/unnamed/part_001 lines 31-61,
identical copy pingHostFast in src/scanner/discovery.go and src/main.go).

The ten probe ports and the two timeout constants are taken from the source.
Physical time is abstracted: dialOk ip p says whether the TCP dial of ip:p
succeeds within its 100 ms per-attempt timeout.  Because the 200 ms outer
timeout is strictly larger than the per-attempt timeout, a successful attempt
always lands its buffered-channel signal before the outer deadline, so the
race returns true exactly when some attempt succeeds; losing attempts are
abandoned (their results discarded), not cancelled. -/

/-- The fixed ordered port set probed by PingHostFast. -/
def pingProbePorts : List Int := [80, 443, 22, 21, 23, 25, 53, 135, 139, 445]

/-- Per-attempt dial timeout of PingHostFast, in milliseconds. -/
def pingAttemptTimeoutMs : Nat := 100

/-- Outer context timeout of PingHostFast, in milliseconds. -/
def pingOuterTimeoutMs : Nat := 200

/-- Model of PingHostFast: true exactly when some concurrent attempt on the
probe ports succeeds, first success wins. -/
def PingHostFast (dialOk : String → Int → Bool) (ip : String) : Bool :=
  pingProbePorts.any (dialOk ip)

/-! ## Result aggregation and sorting.

Go sort.Slice(s, less) delivers some ordering of s in which no later element
is less than an earlier one.  It is modelled by an insertion sort with the
non-strict relation "not (less b a)"; the theorems below establish exactly
the contract (a permutation of the input, pairwise ordered), which is all
sort.Slice guarantees. -/

/-- Insert an element into a list ordered by le. -/
def insertLe {α : Type} (le : α → α → Bool) (a : α) : List α → List α
  | [] => [a]
  | b :: bs => if le a b then a :: b :: bs else b :: insertLe le a bs

/-- Insertion sort by le, the model of sort.Slice with less p q = not (le q p). -/
def sortLe {α : Type} (le : α → α → Bool) : List α → List α
  | [] => []
  | a :: as => insertLe le a (sortLe le as)

/-- The non-strict host order induced by the CompareIPs strict order. -/
def hostLe (a b : HostResult) : Bool := ! CompareIPs b.IP a.IP

/-- The non-strict port order induced by the Port < Port strict order. -/
def portLe (a b : PortResult) : Bool := ! decide (b.Port < a.Port)

/-- Contiguous batches of size B, with fuel (B is a positive constant at
every call site; with fuel at least the list length the batches cover the
whole list). -/
def chunksAux {α : Type} (B : Nat) : Nat → List α → List (List α)
  | _, [] => []
  | 0, _ => []
  | fuel + 1, l => l.take B :: chunksAux B fuel (l.drop B)

/-- The batch partition of the work list used by the scheduler loops. -/
def chunks {α : Type} (B : Nat) (l : List α) : List (List α) :=
  chunksAux B l.length l

/-! ## Scan entry points (denotational form).

The concurrent collection loops deliver batch results in goroutine completion
order, which is non-deterministic.  Each entry point therefore takes an
order parameter giving, for each batch, the order in which the dispatched
items complete; the theorems quantify over every such parameter that is a
permutation of its batch.  Everything else (which items are kept, the final
sort) is deterministic and follows the Go control flow literally. -/

/-- Batch size of PingSweep. -/
def pingSweepBatchSize : Nat := 254

/-- In-flight cap of PingSweep. -/
def pingSweepMaxConcurrent : Nat := 500

/-- Model of PingSweep (src/unnamed/part_001 lines 108-184): liveness-probe
every generated address in batches, keep alive hosts with their latency, and
sort the accumulated hosts by CompareIPs. -/
def PingSweep (aliveEnv : String → Int → Bool) (latEnv : String → Nat)
    (ord : List String → List String) (network : String) : List HostResult :=
  let ips := GenerateIPs network
  let allHosts := ((chunks pingSweepBatchSize ips).map (fun batch =>
    (ord batch).filterMap (fun ip =>
      if PingHostFast aliveEnv ip then
        some { IP := ip, Alive := true, LatencyMs := latEnv ip }
      else none))).flatten
  sortLe hostLe allHosts

/-- Batch size of ScanPorts. -/
def scanPortsBatchSize : Nat := 1000

/-- In-flight cap of ScanPorts. -/
def scanPortsMaxConcurrent : Nat := 5000

/-- Model of ScanPorts (src/unnamed/part_001 lines 187-250): probe every port
of the list in batches with the thorough prober, keep open ports, and sort
the accumulated results by ascending port number. -/
def ScanPorts (dialEnv : String → Int → Option Conn)
    (ord : List Int → List Int) (target : String) (ports : List Int) : List PortResult :=
  let allResults := ((chunks scanPortsBatchSize ports).map (fun batch =>
    (ord batch).filterMap (fun port =>
      let result := ScanPort dialEnv target port
      if result.Open then some result else none))).flatten
  sortLe portLe allResults

/-- Outer in-flight cap of NetworkDiscovery (hosts). -/
def discoveryMaxHostConcurrency : Nat := 100

/-- Inner in-flight cap of NetworkDiscovery (ports per host). -/
def discoveryMaxPortConcurrency : Nat := 50

/-- Batch size of NetworkDiscovery. -/
def discoveryBatchSize : Nat := 50

/-- The per-host task of NetworkDiscovery: liveness-probe the address, then
scan all ports with the fast prober (results collected in completion order
portOrd ip), and report a HostResult only when some port is open or the
scanned port list is empty. -/
def hostTask (aliveEnv : String → Int → Bool) (dialEnv : String → Int → Option Conn)
    (portOrd : String → List Int → List Int) (ports : List Int) (ip : String) :
    Option HostResult :=
  if PingHostFast aliveEnv ip then
    let openPorts := (portOrd ip ports).filterMap (fun port =>
      let result := ScanPortFast dialEnv ip port
      if result.Open then some result else none)
    if 0 < openPorts.length ∨ ports.length = 0 then
      some { IP := ip, Alive := true, Ports := openPorts }
    else none
  else none

/-- Model of NetworkDiscovery (src/pkg/scanner/discovery.go lines 13-125):
enumerate addresses, process them in batches of 50 through hostTask, collect
each batch in completion order hostOrd, and sort the accumulated hosts by
CompareIPs.  The per-host port lists are left exactly as collected. -/
def NetworkDiscovery (aliveEnv : String → Int → Bool) (dialEnv : String → Int → Option Conn)
    (portOrd : String → List Int → List Int) (hostOrd : List String → List String)
    (network : String) (ports : List Int) : List HostResult :=
  let ips := GenerateIPs network
  let allHosts := ((chunks discoveryBatchSize ips).map (fun batch =>
    (hostOrd batch).filterMap (hostTask aliveEnv dialEnv portOrd ports))).flatten
  sortLe hostLe allHosts

/-! ## The Concurrency Scheduler as a transition system.

The batched bounded-concurrency pattern shared by PingSweep, ScanPorts and
NetworkDiscovery is modelled operationally.  A configuration fixes N work
items, an in-flight cap K (the semaphore channel capacity) and a batch size
B.  Item i belongs to batch i / B.  A state records each item phase and the
index of the batch the main loop is currently dispatching/draining:

- start i: the goroutine of item i acquires a semaphore slot and begins its
  operation - only possible for an item of the current batch that has not
  run yet and only while fewer than K operations are in flight;
- finish i: the operation of item i completes (success or failure), reports
  to the batch collector and releases its slot;
- advance: the main loop observes that every item dispatched in the current
  batch has finished (the WaitGroup join followed by the channel close) and
  moves to the next batch.

Interleaving is arbitrary: a trace is any list of steps each enabled when
taken. -/

inductive Phase where
  | notStarted
  | running
  | finished
deriving DecidableEq, Repr

structure SchedCfg where
  N : Nat
  K : Nat
  B : Nat
deriving DecidableEq, Repr

structure SchedState where
  phase : List Phase
  cur : Nat
deriving DecidableEq, Repr

/-- Initial state: no item has run, the first batch is current. -/
def schedInit (N : Nat) : SchedState := ⟨List.replicate N Phase.notStarted, 0⟩

/-- Number of batches the work list is partitioned into. -/
def numBatches (cfg : SchedCfg) : Nat := (cfg.N + cfg.B - 1) / cfg.B

/-- Number of operations currently executing. -/
def runningCount (ph : List Phase) : Nat :=
  ph.countP (fun p => decide (p = Phase.running))

/-- The phase of item i (items beyond the list read as finished; all states
in use keep the list at length N). -/
def phaseAt (s : SchedState) (i : Nat) : Phase := s.phase.getD i Phase.finished

inductive SchedStep where
  | start (i : Nat)
  | finish (i : Nat)
  | advance
deriving DecidableEq, Repr

/-- Guard of each scheduler step. -/
def stepOk (cfg : SchedCfg) (s : SchedState) : SchedStep → Bool
  | SchedStep.start i =>
      decide (i < cfg.N) && decide (phaseAt s i = Phase.notStarted) &&
      decide (i / cfg.B = s.cur) && decide (runningCount s.phase < cfg.K)
  | SchedStep.finish i =>
      decide (i < cfg.N) && decide (phaseAt s i = Phase.running)
  | SchedStep.advance =>
      decide (s.cur < numBatches cfg) &&
      decide (∀ i, i < cfg.N → i / cfg.B = s.cur → phaseAt s i = Phase.finished)

/-- Effect of each scheduler step. -/
def applyStep (s : SchedState) : SchedStep → SchedState
  | SchedStep.start i => ⟨s.phase.set i Phase.running, s.cur⟩
  | SchedStep.finish i => ⟨s.phase.set i Phase.finished, s.cur⟩
  | SchedStep.advance => ⟨s.phase, s.cur + 1⟩

/-- Run a trace of steps, failing if any step is taken while not enabled. -/
def runTrace (cfg : SchedCfg) : SchedState → List SchedStep → Option SchedState
  | s, [] => some s
  | s, st :: tr => if stepOk cfg s st then runTrace cfg (applyStep s st) tr else none

/-- A state from which no scheduler step is enabled. -/
def SchedStuck (cfg : SchedCfg) (s : SchedState) : Prop :=
  ∀ st, stepOk cfg s st = false

/-- Number of start steps for item i in a trace. -/
def countStarts (i : Nat) (tr : List SchedStep) : Nat :=
  tr.countP (fun st => decide (st = SchedStep.start i))

/-! ## Concrete environments used to evaluate the entry points on fixed runs. -/

/-- Liveness environment in which exactly the address 10.0.0.1 answers. -/
def cexAlive : String → Int → Bool := fun ip _ => decide (ip = "10.0.0.1")

/-- Dial environment in which every connection attempt fails. -/
def cexDialNone : String → Int → Option Conn := fun _ _ => none

/-- Dial environment in which every connection attempt succeeds with a
connection whose read errors out (empty banner). -/
def cexDialAll : String → Int → Option Conn := fun _ _ => some ⟨none⟩

/-! ## Invariant and termination measure of the scheduler model. -/

/-- The scheduler invariant: the phase list keeps its length, at most K
operations run at once, the current batch index never passes the batch
count, batches before the current one are entirely finished, batches after
it are entirely unstarted, and every running item belongs to the current
batch. -/
def SchedInv (cfg : SchedCfg) (s : SchedState) : Prop :=
  s.phase.length = cfg.N ∧
  runningCount s.phase ≤ cfg.K ∧
  s.cur ≤ numBatches cfg ∧
  (∀ i, i < cfg.N → i / cfg.B < s.cur → phaseAt s i = Phase.finished) ∧
  (∀ i, i < cfg.N → s.cur < i / cfg.B → phaseAt s i = Phase.notStarted) ∧
  (∀ i, i < cfg.N → phaseAt s i = Phase.running → i / cfg.B = s.cur)

/-- Termination measure: every enabled step strictly decreases it. -/
def schedMeasure (cfg : SchedCfg) (s : SchedState) : Nat :=
  2 * s.phase.countP (fun p => decide (p = Phase.notStarted)) +
    runningCount s.phase + (numBatches cfg - s.cur)

/-! ## Helper lemmas: insertion sort contract (permutation and ordering). -/

theorem insertLe_perm {α : Type} (le : α → α → Bool) (a : α) (l : List α) :
    (insertLe le a l).Perm (a :: l) := by
  induction l with
  | nil => simp [insertLe]
  | cons b bs ih =>
      simp only [insertLe]
      by_cases h : le a b = true
      · simp [h]
      · rw [if_neg h]
        exact (ih.cons b).trans (List.Perm.swap a b bs)

theorem sortLe_perm {α : Type} (le : α → α → Bool) (l : List α) :
    (sortLe le l).Perm l := by
  induction l with
  | nil => simp [sortLe]
  | cons a as ih =>
      exact (insertLe_perm le a (sortLe le as)).trans (ih.cons a)

theorem pairwise_insertLe {α : Type} (le : α → α → Bool)
    (htot : ∀ a b, le a b = true ∨ le b a = true)
    (htrans : ∀ a b c, le a b = true → le b c = true → le a c = true)
    (a : α) (l : List α) (hl : l.Pairwise (fun x y => le x y = true)) :
    (insertLe le a l).Pairwise (fun x y => le x y = true) := by
  induction l with
  | nil => simp [insertLe]
  | cons b bs ih =>
      rcases List.pairwise_cons.mp hl with ⟨hb, hbs⟩
      simp only [insertLe]
      by_cases h : le a b = true
      · simp only [h, if_true]
        refine List.pairwise_cons.mpr ⟨?_, hl⟩
        intro x hx
        rcases List.mem_cons.mp hx with rfl | hx
        · exact h
        · exact htrans a b x h (hb x hx)
      · rw [if_neg h]
        refine List.pairwise_cons.mpr ⟨?_, ih hbs⟩
        intro x hx
        have hmem := (insertLe_perm le a bs).mem_iff.mp hx
        rcases List.mem_cons.mp hmem with rfl | hx'
        · rcases htot x b with h1 | h1
          · exact absurd h1 h
          · exact h1
        · exact hb x hx'

theorem pairwise_sortLe {α : Type} (le : α → α → Bool)
    (htot : ∀ a b, le a b = true ∨ le b a = true)
    (htrans : ∀ a b c, le a b = true → le b c = true → le a c = true)
    (l : List α) : (sortLe le l).Pairwise (fun x y => le x y = true) := by
  induction l with
  | nil => simp [sortLe]
  | cons a as ih => exact pairwise_insertLe le htot htrans a (sortLe le as) ih

/-! ## Helper lemmas: the CompareIPs comparison is a strict order read off the
scanned octet values, so its negation is a total preorder. -/

theorem compareIdx_asymm (p1 p2 : List String) (i : Nat) (k : Nat) :
    compareIdx p1 p2 i k = true → compareIdx p2 p1 i k = false := by
  induction k generalizing i with
  | zero => simp [compareIdx]
  | succ k ih =>
      intro h
      simp only [compareIdx] at h ⊢
      by_cases he : sscanfD (p1.getD i "") = sscanfD (p2.getD i "")
      · rw [if_pos he] at h
        rw [if_pos he.symm]
        exact ih (i + 1) h
      · rw [if_neg he] at h
        rw [if_neg (fun hc => he hc.symm)]
        simp only [decide_eq_true_eq] at h
        simp only [decide_eq_false_iff_not]
        omega

theorem compareIdx_cotrans (p1 p2 p3 : List String) (i : Nat) (k : Nat) :
    compareIdx p1 p3 i k = true →
    compareIdx p1 p2 i k = true ∨ compareIdx p2 p3 i k = true := by
  induction k generalizing i with
  | zero => simp [compareIdx]
  | succ k ih =>
      intro h
      simp only [compareIdx] at h ⊢
      set x := sscanfD (p1.getD i "") with hx
      set y := sscanfD (p2.getD i "") with hy
      set z := sscanfD (p3.getD i "") with hz
      by_cases hxz : x = z
      · rw [if_pos hxz] at h
        by_cases hxy : x = y
        · have hyz : y = z := by omega
          rw [if_pos hxy, if_pos hyz]
          rcases ih (i + 1) h with h' | h'
          · exact Or.inl h'
          · exact Or.inr h'
        · rw [if_neg hxy]
          by_cases hlt : x < y
          · exact Or.inl (by simp [hlt])
          · right
            have hyz : ¬ y = z := by omega
            rw [if_neg hyz]
            simp only [decide_eq_true_eq]
            omega
      · rw [if_neg hxz] at h
        simp only [decide_eq_true_eq] at h
        by_cases hxy : x = y
        · right
          have hyz : ¬ y = z := by omega
          rw [if_neg hyz]
          simp only [decide_eq_true_eq]
          omega
        · by_cases hlt : x < y
          · exact Or.inl (by simp [hxy, hlt])
          · right
            have hyz : ¬ y = z := by omega
            rw [if_neg hyz]
            simp only [decide_eq_true_eq]
            omega

theorem hostLe_total (a b : HostResult) : hostLe a b = true ∨ hostLe b a = true := by
  by_cases h : CompareIPs b.IP a.IP = true
  · right
    have := compareIdx_asymm _ _ _ _ h
    simp [hostLe, CompareIPs] at this ⊢
    exact this
  · left
    simp [hostLe, h]

theorem hostLe_trans (a b c : HostResult) :
    hostLe a b = true → hostLe b c = true → hostLe a c = true := by
  simp only [hostLe, Bool.not_eq_true', CompareIPs]
  intro hab hbc
  by_cases h : compareIdx (splitStr c.IP '.') (splitStr a.IP '.') 0 4 = true
  · rcases compareIdx_cotrans (splitStr c.IP '.') (splitStr b.IP '.') (splitStr a.IP '.') 0 4 h with h' | h'
    · rw [h'] at hbc; exact absurd hbc (by simp)
    · rw [h'] at hab; exact absurd hab (by simp)
  · simpa using h

theorem portLe_total (a b : PortResult) : portLe a b = true ∨ portLe b a = true := by
  simp only [portLe, Bool.not_eq_true', decide_eq_false_iff_not, not_lt]
  omega

theorem portLe_trans (a b c : PortResult) :
    portLe a b = true → portLe b c = true → portLe a c = true := by
  simp only [portLe, Bool.not_eq_true', decide_eq_false_iff_not, not_lt]
  omega

/-! ## Helper lemmas: banner normalization. -/

theorem collapseCRLF_cons_ne (d : Char) (rest : List Char)
    (hne : ∀ rest1, d = '\r' → rest = '\n' :: rest1 → False) :
    collapseCRLF (d :: rest) = d :: collapseCRLF rest := by
  rw [collapseCRLF.eq_def]
  split
  · rename_i heq
    exact absurd heq (by simp)
  · rename_i r1 heq
    injection heq with h1 h2
    exact (hne r1 h1 h2).elim
  · rename_i c r heq hx
    injection hx with h1 h2
    subst h1
    subst h2
    rfl

theorem mem_collapseCRLF {c : Char} (cs : List Char) :
    c ∈ collapseCRLF cs → c ∈ cs ∨ c = ' ' := by
  induction cs using collapseCRLF.induct with
  | case1 => simp [collapseCRLF]
  | case2 rest ih =>
      intro h
      rcases List.mem_cons.mp h with rfl | h
      · exact Or.inr rfl
      · rcases ih h with h' | h'
        · exact Or.inl (by simp [h'])
        · exact Or.inr h'
  | case3 d rest hne ih =>
      intro h
      rw [collapseCRLF_cons_ne d rest hne] at h
      rcases List.mem_cons.mp h with rfl | h
      · exact Or.inl (List.mem_cons_self _ _)
      · rcases ih h with h' | h'
        · exact Or.inl (List.mem_cons_of_mem _ h')
        · exact Or.inr h'

theorem mem_lfToSpace_ne_lf {c : Char} (cs : List Char) :
    c ∈ lfToSpace cs → c ≠ '\n' := by
  intro h
  rcases List.mem_map.mp h with ⟨d, _, hd⟩
  by_cases hdn : d = '\n'
  · subst hdn
    simp at hd
    subst hd
    decide
  · rw [if_neg hdn] at hd
    subst hd
    exact hdn

theorem trimChars_subset (cs : List Char) : trimChars cs ⊆ cs := by
  intro c hc
  unfold trimChars at hc
  rw [List.mem_reverse] at hc
  have h1 := (List.dropWhile_sublist wsp).subset hc
  rw [List.mem_reverse] at h1
  exact (List.dropWhile_sublist wsp).subset h1

theorem head?_dropWhile_false (p : Char → Bool) (l : List Char) {h : Char} :
    (l.dropWhile p).head? = some h → p h = false := by
  induction l with
  | nil => simp [List.dropWhile]
  | cons a as ih =>
      simp only [List.dropWhile]
      by_cases hp : p a = true
      · rw [hp]
        exact ih
      · rw [Bool.not_eq_true] at hp
        rw [hp]
        intro he
        simp at he
        rw [← he]
        exact hp

theorem trimChars_append_junk (cs : List Char) :
    ∃ t, cs.dropWhile wsp = trimChars cs ++ t := by
  refine ⟨((cs.dropWhile wsp).reverse.takeWhile wsp).reverse, ?_⟩
  unfold trimChars
  rw [← List.reverse_append, List.takeWhile_append_dropWhile, List.reverse_reverse]

theorem head?_trimChars (cs : List Char) {h : Char} :
    (trimChars cs).head? = some h → wsp h = false := by
  intro hh
  rcases trimChars_append_junk cs with ⟨t, ht⟩
  have hne : trimChars cs ≠ [] := by
    intro he
    rw [he] at hh
    simp at hh
  have : (cs.dropWhile wsp).head? = some h := by
    rw [ht, List.head?_append_of_ne_nil _ hne]
    exact hh
  exact head?_dropWhile_false wsp cs this

theorem getLast?_trimChars (cs : List Char) {h : Char} :
    (trimChars cs).getLast? = some h → wsp h = false := by
  intro hh
  unfold trimChars at hh
  rw [List.getLast?_reverse] at hh
  exact head?_dropWhile_false wsp _ hh

theorem length_truncTo (bound : Nat) (cs : List Char) :
    (truncTo bound cs).length ≤ bound + 3 := by
  unfold truncTo
  by_cases hl : bound < cs.length
  · rw [if_pos hl]
    simp only [List.length_append, List.length_take, List.length_cons, List.length_nil]
    omega
  · rw [if_neg hl]
    omega

theorem mem_truncTo {c : Char} (bound : Nat) (cs : List Char) :
    c ∈ truncTo bound cs → c ∈ cs ∨ c = '.' := by
  unfold truncTo
  by_cases hl : bound < cs.length
  · rw [if_pos hl]
    intro h
    rcases List.mem_append.mp h with h' | h'
    · exact Or.inl (List.take_subset bound cs h')
    · right
      simp at h'
      exact h'
  · rw [if_neg hl]
    exact Or.inl

theorem head?_take_pos {α : Type} (l : List α) (n : Nat) (hn : 0 < n) :
    (l.take n).head? = l.head? := by
  cases l with
  | nil => simp
  | cons a as =>
      cases n with
      | zero => omega
      | succ m => simp [List.take]

theorem head?_truncTo (bound : Nat) (cs : List Char) (hb : 0 < bound) {h : Char} :
    (truncTo bound cs).head? = some h → cs.head? = some h := by
  unfold truncTo
  by_cases hl : bound < cs.length
  · rw [if_pos hl]
    intro hh
    have hne : cs.take bound ≠ [] := by
      intro he
      have := congrArg List.length he
      simp only [List.length_take, List.length_nil] at this
      omega
    rw [List.head?_append_of_ne_nil _ hne] at hh
    rw [← head?_take_pos cs bound hb]
    exact hh
  · rw [if_neg hl]
    exact fun hh => hh

theorem getLast?_truncTo (bound : Nat) (cs : List Char) {h : Char} :
    (truncTo bound cs).getLast? = some h → cs.getLast? = some h ∨ h = '.' := by
  unfold truncTo
  by_cases hl : bound < cs.length
  · rw [if_pos hl]
    intro hh
    right
    rw [List.getLast?_append] at hh
    simp at hh
    exact hh.symm
  · rw [if_neg hl]
    exact fun hh => Or.inl hh

theorem length_normalizeBanner (bound : Nat) (raw : List Char) :
    (normalizeBanner bound raw).length ≤ bound + 3 :=
  length_truncTo bound (normalizeRaw raw)

theorem mem_normalizeBanner_ne_lf {c : Char} (bound : Nat) (raw : List Char) :
    c ∈ normalizeBanner bound raw → c ≠ '\n' := by
  intro h
  rcases mem_truncTo bound (normalizeRaw raw) h with h' | h'
  · have := trimChars_subset (lfToSpace (collapseCRLF raw)) h'
    exact mem_lfToSpace_ne_lf _ this
  · subst h'
    decide

theorem head?_normalizeBanner (bound : Nat) (raw : List Char) (hb : 0 < bound) {h : Char} :
    (normalizeBanner bound raw).head? = some h → wsp h = false := by
  intro hh
  exact head?_trimChars _ (head?_truncTo bound (normalizeRaw raw) hb hh)

theorem getLast?_normalizeBanner (bound : Nat) (raw : List Char) {h : Char} :
    (normalizeBanner bound raw).getLast? = some h → wsp h = false := by
  intro hh
  rcases getLast?_truncTo bound (normalizeRaw raw) hh with h' | h'
  · exact getLast?_trimChars _ h'
  · subst h'
    decide

/-- Claim C6: for every byte sequence read from a connection, in both
profiles the Banner Reader returns the two ReplaceAll passes followed by
TrimSpace and profile-bounded truncation; the output never exceeds the
profile bound (fast 40, thorough 50) plus the three-character truncation
marker, contains no raw line-feed character, has no leading or trailing
whitespace, and carries the marker exactly when the normalized string was
cut (the fast profile is stated away from port 443, where no read happens
at all). -/
theorem claim_C6_banner_bounds :
    ∀ (conn : Conn) (port : Int) (raw : String), conn.readData = some raw →
      ((GrabBanner conn port).1.data = normalizeBanner 50 (raw.data.take 1024) ∧
       (GrabBanner conn port).1.length ≤ 50 + 3 ∧
       (∀ c ∈ (GrabBanner conn port).1.data, c ≠ '\n') ∧
       (∀ h, (GrabBanner conn port).1.data.head? = some h → wsp h = false) ∧
       (∀ h, (GrabBanner conn port).1.data.getLast? = some h → wsp h = false) ∧
       (¬ 50 < (normalizeRaw (raw.data.take 1024)).length →
          (GrabBanner conn port).1.data = normalizeRaw (raw.data.take 1024)) ∧
       (50 < (normalizeRaw (raw.data.take 1024)).length →
          (GrabBanner conn port).1.data =
            (normalizeRaw (raw.data.take 1024)).take 50 ++ ['.', '.', '.'])) ∧
      (port ≠ 443 →
       ((GrabBannerFast conn port).1.data = normalizeBanner 40 (raw.data.take 512) ∧
        (GrabBannerFast conn port).1.length ≤ 40 + 3 ∧
        (∀ c ∈ (GrabBannerFast conn port).1.data, c ≠ '\n') ∧
        (∀ h, (GrabBannerFast conn port).1.data.head? = some h → wsp h = false) ∧
        (∀ h, (GrabBannerFast conn port).1.data.getLast? = some h → wsp h = false) ∧
        (¬ 40 < (normalizeRaw (raw.data.take 512)).length →
           (GrabBannerFast conn port).1.data = normalizeRaw (raw.data.take 512)) ∧
        (40 < (normalizeRaw (raw.data.take 512)).length →
           (GrabBannerFast conn port).1.data =
             (normalizeRaw (raw.data.take 512)).take 40 ++ ['.', '.', '.']))) := by
  intro conn port raw hread
  have hthor : (GrabBanner conn port).1.data = normalizeBanner 50 (raw.data.take 1024) := by
    simp [GrabBanner, hread]
  constructor
  · refine ⟨hthor, ?_, ?_, ?_, ?_, ?_, ?_⟩
    · show (GrabBanner conn port).1.data.length ≤ 53
      rw [hthor]
      exact length_normalizeBanner 50 _
    · intro c hc
      rw [hthor] at hc
      exact mem_normalizeBanner_ne_lf 50 _ hc
    · intro h hh
      rw [hthor] at hh
      exact head?_normalizeBanner 50 _ (by omega) hh
    · intro h hh
      rw [hthor] at hh
      exact getLast?_normalizeBanner 50 _ hh
    · intro hcut
      rw [hthor]
      unfold normalizeBanner truncTo
      rw [if_neg hcut]
    · intro hcut
      rw [hthor]
      unfold normalizeBanner truncTo
      rw [if_pos hcut]
  · intro h443
    have hfast : (GrabBannerFast conn port).1.data = normalizeBanner 40 (raw.data.take 512) := by
      simp [GrabBannerFast, if_neg h443, hread]
    refine ⟨hfast, ?_, ?_, ?_, ?_, ?_, ?_⟩
    · show (GrabBannerFast conn port).1.data.length ≤ 43
      rw [hfast]
      exact length_normalizeBanner 40 _
    · intro c hc
      rw [hfast] at hc
      exact mem_normalizeBanner_ne_lf 40 _ hc
    · intro h hh
      rw [hfast] at hh
      exact head?_normalizeBanner 40 _ (by omega) hh
    · intro h hh
      rw [hfast] at hh
      exact getLast?_normalizeBanner 40 _ hh
    · intro hcut
      rw [hfast]
      unfold normalizeBanner truncTo
      rw [if_neg hcut]
    · intro hcut
      rw [hfast]
      unfold normalizeBanner truncTo
      rw [if_pos hcut]

/-- Witness for claim C6 at a concrete connection, port and raw read. -/
theorem claim_C6_witness :
    (Conn.mk (some "HTTP/1.1 200 OK\r\nServer: nginx")).readData =
        some "HTTP/1.1 200 OK\r\nServer: nginx" ∧
    ((GrabBanner (Conn.mk (some "HTTP/1.1 200 OK\r\nServer: nginx")) 80).1.data =
        normalizeBanner 50 (("HTTP/1.1 200 OK\r\nServer: nginx" : String).data.take 1024) ∧
     (GrabBanner (Conn.mk (some "HTTP/1.1 200 OK\r\nServer: nginx")) 80).1.length ≤ 50 + 3 ∧
     (∀ c ∈ (GrabBanner (Conn.mk (some "HTTP/1.1 200 OK\r\nServer: nginx")) 80).1.data, c ≠ '\n') ∧
     (∀ h, (GrabBanner (Conn.mk (some "HTTP/1.1 200 OK\r\nServer: nginx")) 80).1.data.head? = some h → wsp h = false) ∧
     (∀ h, (GrabBanner (Conn.mk (some "HTTP/1.1 200 OK\r\nServer: nginx")) 80).1.data.getLast? = some h → wsp h = false) ∧
     (¬ 50 < (normalizeRaw (("HTTP/1.1 200 OK\r\nServer: nginx" : String).data.take 1024)).length →
        (GrabBanner (Conn.mk (some "HTTP/1.1 200 OK\r\nServer: nginx")) 80).1.data =
          normalizeRaw (("HTTP/1.1 200 OK\r\nServer: nginx" : String).data.take 1024)) ∧
     (50 < (normalizeRaw (("HTTP/1.1 200 OK\r\nServer: nginx" : String).data.take 1024)).length →
        (GrabBanner (Conn.mk (some "HTTP/1.1 200 OK\r\nServer: nginx")) 80).1.data =
          (normalizeRaw (("HTTP/1.1 200 OK\r\nServer: nginx" : String).data.take 1024)).take 50 ++ ['.', '.', '.'])) :=
  ⟨rfl, (claim_C6_banner_bounds (Conn.mk (some "HTTP/1.1 200 OK\r\nServer: nginx")) 80
      "HTTP/1.1 200 OK\r\nServer: nginx" rfl).1⟩

/-- Counterexample to claim C3 as stated: in the thorough profile the Banner
Reader called with port 443 does attempt a read on the connection and returns
whatever the peer sent rather than an empty banner. -/
theorem claim_C3_counterexample :
    (GrabBanner (Conn.mk (some "SSH-2.0-OpenSSH")) 443).1 ≠ "" ∧
    NetEvent.readAttempt 1024 ∈ (GrabBanner (Conn.mk (some "SSH-2.0-OpenSSH")) 443).2 := by
  constructor
  · decide
  · decide

/-- Claim C3 as amended: only the fast profile returns an empty banner for
port 443 immediately, with no stimulus written and no read attempted (only
the read deadline is set).  The thorough profile writes no stimulus for port
443 but does attempt a read: it returns the empty banner exactly when that
read fails, and the normalized read data otherwise. -/
theorem claim_C3_amended :
    ∀ conn : Conn,
      GrabBannerFast conn 443 = ("", [NetEvent.setReadDeadline 500]) ∧
      (GrabBanner conn 443).2 = [NetEvent.setReadDeadline 2000, NetEvent.readAttempt 1024] ∧
      (conn.readData = none → (GrabBanner conn 443).1 = "") ∧
      (∀ raw, conn.readData = some raw →
        (GrabBanner conn 443).1 = String.mk (normalizeBanner 50 (raw.data.take 1024))) := by
  intro conn
  refine ⟨rfl, ?_, ?_, ?_⟩
  · rcases hc : conn.readData with _ | raw <;> simp [GrabBanner, hc]
  · intro hc
    simp [GrabBanner, hc]
  · intro raw hc
    simp [GrabBanner, hc]

/-- Witness for the amended claim C3 at a concrete connection. -/
theorem claim_C3_witness :
    (Conn.mk none).readData = none ∧
    (GrabBannerFast (Conn.mk none) 443 = ("", [NetEvent.setReadDeadline 500]) ∧
     (GrabBanner (Conn.mk none) 443).1 = "") :=
  ⟨rfl, (claim_C3_amended (Conn.mk none)).1, ((claim_C3_amended (Conn.mk none)).2.2.1 rfl)⟩

/-! ## Helper lemma: values of the service table. -/

theorem lookup_mem_values {α β : Type} [BEq α] [LawfulBEq α]
    (l : List (α × β)) (k : α) (v : β) :
    l.lookup k = some v → v ∈ l.map Prod.snd := by
  induction l with
  | nil => simp [List.lookup]
  | cons p ps ih =>
      simp only [List.lookup]
      by_cases hk : (k == p.1) = true
      · rw [hk]
        intro h
        simp at h
        simp [← h]
      · rw [Bool.not_eq_true] at hk
        rw [hk]
        intro h
        simp [ih h]

theorem serviceFor_ne_unknown (port : Int) : serviceFor port ≠ "Unknown" := by
  unfold serviceFor
  rcases hl : CommonServices.lookup port with _ | v
  · decide
  · have hv := lookup_mem_values CommonServices port v hl
    have hall : ∀ w ∈ CommonServices.map Prod.snd, w ≠ "Unknown" := by decide
    simp only [Option.getD_some]
    exact hall v hv

/-- Claim C7: for every address and port, the Port Prober (both profiles)
returns a closed PortOutcome with open=false and empty service and banner
whenever the dial fails, surfacing no error; on a successful dial it returns
open=true with the service looked up in the static table (absent ports give
the empty service string, and no entry of the table - hence no result - ever
stores the sentinel "Unknown") and the banner produced by the corresponding
Banner Reader profile. -/
theorem claim_C7_port_prober :
    ∀ (dialEnv : String → Int → Option Conn) (host : String) (port : Int),
      (dialEnv host port = none →
        ScanPort dialEnv host port = { Port := port, Open := false, Service := "", Banner := "" } ∧
        ScanPortFast dialEnv host port = { Port := port, Open := false, Service := "", Banner := "" }) ∧
      (∀ c, dialEnv host port = some c →
        ScanPort dialEnv host port =
          { Port := port, Open := true, Service := serviceFor port,
            Banner := (GrabBanner c port).1 } ∧
        ScanPortFast dialEnv host port =
          { Port := port, Open := true, Service := serviceFor port,
            Banner := (GrabBannerFast c port).1 }) ∧
      (CommonServices.lookup port = none → serviceFor port = "") ∧
      serviceFor port ≠ "Unknown" := by
  intro dialEnv host port
  refine ⟨?_, ?_, ?_, serviceFor_ne_unknown port⟩
  · intro h
    constructor <;> simp [ScanPort, ScanPortFast, h]
  · intro c h
    constructor <;> simp [ScanPort, ScanPortFast, h]
  · intro h
    simp [serviceFor, h]

/-- Witness for claim C7: a failing dial and a succeeding dial on a port
absent from the service table. -/
theorem claim_C7_witness :
    (cexDialNone "10.0.0.1" 8000 = none ∧
     ScanPort cexDialNone "10.0.0.1" 8000 =
       { Port := 8000, Open := false, Service := "", Banner := "" }) ∧
    (cexDialAll "10.0.0.1" 8000 = some (Conn.mk none) ∧
     ScanPortFast cexDialAll "10.0.0.1" 8000 =
       { Port := 8000, Open := true, Service := serviceFor 8000,
         Banner := (GrabBannerFast (Conn.mk none) 8000).1 }) :=
  ⟨⟨rfl, ((claim_C7_port_prober cexDialNone "10.0.0.1" 8000).1 rfl).1⟩,
   ⟨rfl, ((claim_C7_port_prober cexDialAll "10.0.0.1" 8000).2.1 (Conn.mk none) rfl).2⟩⟩

/-- Claim C8: the Liveness Prober races connection attempts on exactly the
ten ports 80, 443, 22, 21, 23, 25, 53, 135, 139, 445, with a 100 ms
per-attempt timeout strictly below the 200 ms outer timeout; it returns true
exactly when some attempt succeeds (the first success wins and the remaining
attempts are merely abandoned) and false exactly when no attempt succeeds
within the outer timeout. -/
theorem claim_C8_liveness_race :
    pingProbePorts = [80, 443, 22, 21, 23, 25, 53, 135, 139, 445] ∧
    pingProbePorts.length = 10 ∧
    pingProbePorts.Nodup ∧
    pingAttemptTimeoutMs = 100 ∧
    pingOuterTimeoutMs = 200 ∧
    pingAttemptTimeoutMs < pingOuterTimeoutMs ∧
    (∀ (dialOk : String → Int → Bool) (ip : String),
      (PingHostFast dialOk ip = true ↔ ∃ p ∈ pingProbePorts, dialOk ip p = true) ∧
      (PingHostFast dialOk ip = false ↔ ∀ p ∈ pingProbePorts, dialOk ip p = false)) := by
  refine ⟨rfl, rfl, by decide, rfl, rfl, by decide, ?_⟩
  intro dialOk ip
  constructor
  · simp [PingHostFast, List.any_eq_true]
  · rw [← Bool.not_eq_true]
    simp [PingHostFast, List.any_eq_true]

/-- Witness exercising claim C8 on concrete environments. -/
theorem claim_C8_witness :
    PingHostFast (fun _ p => decide (p = 22)) "10.0.0.1" = true ∧
    PingHostFast (fun _ _ => false) "10.0.0.1" = false :=
  ⟨((claim_C8_liveness_race.2.2.2.2.2.2 (fun _ p => decide (p = 22)) "10.0.0.1").1.mpr
      ⟨22, by decide, by decide⟩),
   ((claim_C8_liveness_race.2.2.2.2.2.2 (fun _ _ => false) "10.0.0.1").2.mpr
      (fun p _ => rfl))⟩

/-- Claim C9: on four-field dotted-quad strings, CompareIPs is exactly the
numeric lexicographic order of the four scanned octet values - never a
string-lexical comparison - and it returns false on numerically equal
addresses. -/
theorem claim_C9_compare_ips :
    ∀ (ip1 ip2 a1 b1 c1 d1 a2 b2 c2 d2 : String),
      splitStr ip1 '.' = [a1, b1, c1, d1] →
      splitStr ip2 '.' = [a2, b2, c2, d2] →
      (CompareIPs ip1 ip2 = true ↔
        (sscanfD a1 < sscanfD a2 ∨ (sscanfD a1 = sscanfD a2 ∧
          (sscanfD b1 < sscanfD b2 ∨ (sscanfD b1 = sscanfD b2 ∧
            (sscanfD c1 < sscanfD c2 ∨ (sscanfD c1 = sscanfD c2 ∧
              sscanfD d1 < sscanfD d2))))))) ∧
      ((sscanfD a1 = sscanfD a2 ∧ sscanfD b1 = sscanfD b2 ∧
        sscanfD c1 = sscanfD c2 ∧ sscanfD d1 = sscanfD d2) →
        CompareIPs ip1 ip2 = false) := by
  intro ip1 ip2 a1 b1 c1 d1 a2 b2 c2 d2 h1 h2
  unfold CompareIPs
  rw [h1, h2]
  simp only [compareIdx, List.getD_cons_zero, List.getD_cons_succ]
  constructor
  · split_ifs <;> simp_all
  · intro he
    split_ifs <;> simp_all

/-- Witness for claim C9: 10.0.0.9 sorts before 10.0.0.10 numerically (a
string-lexical comparison would order them the other way). -/
theorem claim_C9_witness :
    splitStr "10.0.0.9" '.' = ["10", "0", "0", "9"] ∧
    splitStr "10.0.0.10" '.' = ["10", "0", "0", "10"] ∧
    CompareIPs "10.0.0.9" "10.0.0.10" = true ∧
    CompareIPs "10.0.0.10" "10.0.0.10" = false := by
  refine ⟨by decide, by decide, ?_, ?_⟩
  · exact (claim_C9_compare_ips "10.0.0.9" "10.0.0.10" "10" "0" "0" "9" "10" "0" "0" "10"
      (by decide) (by decide)).1.mpr (by decide)
  · exact (claim_C9_compare_ips "10.0.0.10" "10.0.0.10" "10" "0" "0" "10" "10" "0" "0" "10"
      (by decide) (by decide)).2 (by decide)

/-- Claim C10: a range-form string "a-b" with parsed bounds a at most b
yields exactly the inclusive list a, a+1, ..., b with no bound check against
[1, 65535]; a comma-separated string only keeps ports inside [1, 65535]. -/
theorem claim_C10_port_range :
    (∀ (s p1 p2 : String) (a b : Int),
      s.data.contains '-' = true →
      splitStr s '-' = [p1, p2] →
      atoiM (strTrim p1) = some a →
      atoiM (strTrim p2) = some b →
      a ≤ b →
      (ParsePortRange s = intRange a b ∧
       (∀ n : Int, n ∈ ParsePortRange s ↔ a ≤ n ∧ n ≤ b) ∧
       (ParsePortRange s).length = (b + 1 - a).toNat)) ∧
    (∀ s : String, s.data.contains '-' = false →
      ∀ n ∈ ParsePortRange s, 1 ≤ n ∧ n ≤ 65535) := by
  constructor
  · intro s p1 p2 a b hdash hsplit ha hb hle
    have hrange : ParsePortRange s = intRange a b := by
      unfold ParsePortRange
      rw [hdash]
      simp only [if_true]
      rw [hsplit]
      simp only [ha, hb, if_pos hle]
    refine ⟨hrange, ?_, ?_⟩
    · intro n
      rw [hrange]
      unfold intRange
      constructor
      · intro hn
        rcases List.mem_map.mp hn with ⟨k, hk, rfl⟩
        rw [List.mem_range] at hk
        omega
      · intro hn
        refine List.mem_map.mpr ⟨(n - a).toNat, List.mem_range.mpr (by omega), by omega⟩
    · rw [hrange]
      unfold intRange
      simp [List.length_map, List.length_range]
  · intro s hdash n hn
    unfold ParsePortRange at hn
    rw [hdash] at hn
    simp only [Bool.false_eq_true, if_false] at hn
    rcases List.mem_filterMap.mp hn with ⟨t, _, ht⟩
    rcases hat : atoiM (strTrim t) with _ | m
    · simp [hat] at ht
    · simp only [hat] at ht
      by_cases hbnd : 0 < m ∧ m ≤ 65535
      · simp only [if_pos hbnd] at ht
        simp at ht
        omega
      · simp only [if_neg hbnd] at ht
        simp at ht

/-- Witness for claim C10: the range 0-5 emits port 0 and 65530-65600 emits
ports above 65535 (no bound check), while the comma form filters. -/
theorem claim_C10_witness :
    (("0-5" : String).data.contains '-' = true ∧
     splitStr "0-5" '-' = ["0", "5"] ∧
     atoiM (strTrim "0") = some 0 ∧
     atoiM (strTrim "5") = some 5 ∧
     (0 : Int) ≤ 5 ∧
     ParsePortRange "0-5" = intRange 0 5) ∧
    (("80,443,0,70000" : String).data.contains '-' = false ∧
     ∀ n ∈ ParsePortRange "80,443,0,70000", 1 ≤ n ∧ n ≤ 65535) :=
  ⟨⟨by decide, by decide, by decide, by decide, by decide,
    ((claim_C10_port_range.1 "0-5" "0" "5" 0 5 (by decide) (by decide) (by decide)
        (by decide) (by decide)).1)⟩,
   ⟨by decide, claim_C10_port_range.2 "80,443,0,70000" (by decide)⟩⟩

/-- Claim C5: a specification ending in "/24" whose base splits into four
dot-separated fields enumerates exactly 254 addresses, the k-th (0-based)
being the first three base fields joined with host octet k+1 - so host
octets run 1..254 in ascending numeric order with the first three octets
fixed; every other specification yields the empty sequence (and the function
is total, so no error is signalled). -/
theorem claim_C5_enumerator :
    (∀ (network b0 b1 b2 b3 : String),
      hasSuffix24 network = true →
      splitStr (trimSuffix24 network) '.' = [b0, b1, b2, b3] →
      ((GenerateIPs network).length = 254 ∧
       ∀ k, k < 254 → (GenerateIPs network).getD k "" =
         b0 ++ "." ++ b1 ++ "." ++ b2 ++ "." ++ toString (k + 1))) ∧
    (∀ network : String,
      hasSuffix24 network = false ∨ (splitStr (trimSuffix24 network) '.').length ≠ 4 →
      GenerateIPs network = []) := by
  constructor
  · intro network b0 b1 b2 b3 h24 hsplit
    have hgen : GenerateIPs network =
        (List.range' 1 254).map
          (fun i => b0 ++ "." ++ b1 ++ "." ++ b2 ++ "." ++ toString i) := by
      unfold GenerateIPs
      rw [h24]
      simp only [if_true]
      rw [hsplit]
    constructor
    · rw [hgen]
      simp [List.length_map, List.length_range']
    · intro k hk
      rw [hgen, List.getD_eq_getElem?_getD, List.getElem?_map,
        List.getElem?_range' 1 1 (by simpa using hk)]
      simp [Nat.add_comm]
  · intro network h
    unfold GenerateIPs
    by_cases h24 : hasSuffix24 network = true
    · rcases h with h | hlen
      · rw [h24] at h
        cases h
      · rw [h24]
        simp only [if_true]
        split
        · rename_i b0 b1 b2 b3 heq
          rw [heq] at hlen
          simp at hlen
        · rfl
    · rw [Bool.not_eq_true] at h24
      rw [h24]
      simp

/-- Witness for claim C5: the concrete /24 network 192.168.1.0/24 and a
rejected /16 specification. -/
theorem claim_C5_witness :
    (hasSuffix24 "192.168.1.0/24" = true ∧
     splitStr (trimSuffix24 "192.168.1.0/24") '.' = ["192", "168", "1", "0"] ∧
     (GenerateIPs "192.168.1.0/24").length = 254 ∧
     (GenerateIPs "192.168.1.0/24").getD 0 "" = "192.168.1.1" ∧
     (GenerateIPs "192.168.1.0/24").getD 253 "" = "192.168.1.254") ∧
    (hasSuffix24 "10.0.0.0/16" = false ∧ GenerateIPs "10.0.0.0/16" = []) := by
  refine ⟨⟨by decide, by decide, ?_, ?_, ?_⟩, by decide, ?_⟩
  · exact (claim_C5_enumerator.1 "192.168.1.0/24" "192" "168" "1" "0"
      (by decide) (by decide)).1
  · have := (claim_C5_enumerator.1 "192.168.1.0/24" "192" "168" "1" "0"
      (by decide) (by decide)).2 0 (by decide)
    simpa using this
  · have := (claim_C5_enumerator.1 "192.168.1.0/24" "192" "168" "1" "0"
      (by decide) (by decide)).2 253 (by decide)
    simpa using this
  · exact claim_C5_enumerator.2 "10.0.0.0/16" (Or.inl (by decide))

/-! ## Helper lemmas: batch partition and NetworkDiscovery membership. -/

theorem chunksAux_flatten {α : Type} (B : Nat) (hB : 0 < B) :
    ∀ (fuel : Nat) (l : List α), l.length ≤ fuel → (chunksAux B fuel l).flatten = l := by
  intro fuel
  induction fuel with
  | zero =>
      intro l hl
      cases l with
      | nil => rfl
      | cons a as => simp at hl
  | succ f ih =>
      intro l hl
      cases l with
      | nil => rfl
      | cons a as =>
          show ((a :: as).take B :: chunksAux B f ((a :: as).drop B)).flatten = a :: as
          rw [List.flatten_cons]
          rw [ih ((a :: as).drop B) (by
            simp only [List.length_drop, List.length_cons] at hl ⊢
            omega)]
          exact List.take_append_drop B (a :: as)

theorem chunks_flatten {α : Type} (B : Nat) (hB : 0 < B) (l : List α) :
    (chunks B l).flatten = l :=
  chunksAux_flatten B hB l.length l le_rfl

theorem hostTask_some_iff (aliveEnv : String → Int → Bool)
    (dialEnv : String → Int → Option Conn) (portOrd : String → List Int → List Int)
    (ports : List Int) (ip : String) (h : HostResult) :
    hostTask aliveEnv dialEnv portOrd ports ip = some h ↔
    (PingHostFast aliveEnv ip = true ∧
     (0 < ((portOrd ip ports).filterMap (fun port =>
        let result := ScanPortFast dialEnv ip port
        if result.Open then some result else none)).length ∨ ports.length = 0) ∧
     h = { IP := ip, Alive := true,
           Ports := (portOrd ip ports).filterMap (fun port =>
             let result := ScanPortFast dialEnv ip port
             if result.Open then some result else none) }) := by
  unfold hostTask
  by_cases ha : PingHostFast aliveEnv ip = true
  · rw [ha]
    simp only [if_true]
    by_cases hc : 0 < ((portOrd ip ports).filterMap (fun port =>
        let result := ScanPortFast dialEnv ip port
        if result.Open then some result else none)).length ∨ ports.length = 0
    · rw [if_pos hc]
      simp only [Option.some_inj]
      constructor
      · intro he
        exact ⟨trivial, hc, he.symm⟩
      · rintro ⟨-, -, rfl⟩
        rfl
    · rw [if_neg hc]
      constructor
      · intro he
        cases he
      · rintro ⟨-, hc', -⟩
        exact absurd hc' hc
  · rw [Bool.not_eq_true] at ha
    rw [ha]
    simp only [Bool.false_eq_true, if_false]
    constructor
    · intro he
      cases he
    · rintro ⟨ha', -, -⟩
      exact ha'.elim

theorem mem_networkDiscovery_iff (aliveEnv : String → Int → Bool)
    (dialEnv : String → Int → Option Conn) (portOrd : String → List Int → List Int)
    (hostOrd : List String → List String) (network : String) (ports : List Int)
    (hho : ∀ l, (hostOrd l).Perm l) (h : HostResult) :
    h ∈ NetworkDiscovery aliveEnv dialEnv portOrd hostOrd network ports ↔
    ∃ ip ∈ GenerateIPs network, hostTask aliveEnv dialEnv portOrd ports ip = some h := by
  unfold NetworkDiscovery
  rw [(sortLe_perm hostLe _).mem_iff, List.mem_flatten]
  constructor
  · rintro ⟨l, hl, hmem⟩
    rcases List.mem_map.mp hl with ⟨batch, hbatch, rfl⟩
    rcases List.mem_filterMap.mp hmem with ⟨ip, hipo, htask⟩
    have hipb : ip ∈ batch := (hho batch).subset hipo
    refine ⟨ip, ?_, htask⟩
    rw [← chunks_flatten discoveryBatchSize (by decide) (GenerateIPs network)]
    exact List.mem_flatten.mpr ⟨batch, hbatch, hipb⟩
  · rintro ⟨ip, hip, htask⟩
    have hip' : ip ∈ (chunks discoveryBatchSize (GenerateIPs network)).flatten := by
      rw [chunks_flatten discoveryBatchSize (by decide)]
      exact hip
    rcases List.mem_flatten.mp hip' with ⟨batch, hbatch, hipb⟩
    refine ⟨(hostOrd batch).filterMap (hostTask aliveEnv dialEnv portOrd ports),
      List.mem_map_of_mem _ hbatch, ?_⟩
    exact List.mem_filterMap.mpr ⟨ip, (hho batch).mem_iff.mpr hipb, htask⟩

/-- Counterexample to claim C2 as stated: on network 10.0.0.0/24 with scanned
port list [80], the address 10.0.0.1 is found alive by the liveness probe but
no port is open; the combined discovery result is empty, so the alive host is
absent rather than present with an empty port list. -/
theorem claim_C2_counterexample :
    PingHostFast cexAlive "10.0.0.1" = true ∧
    "10.0.0.1" ∈ GenerateIPs "10.0.0.0/24" ∧
    ([80] : List Int) ≠ [] ∧
    NetworkDiscovery cexAlive cexDialNone (fun _ l => l) (fun l => l)
      "10.0.0.0/24" [80] = [] := by
  refine ⟨by decide, by decide, by decide, by decide⟩

/-- Claim C2 as amended: with a non-empty scanned port list, an address found
alive produces a HostOutcome exactly when at least one scanned port is open;
an alive host with no open ports is dropped from the combined-discovery
result (it would be reported, with an empty port list, only when the scanned
port list itself is empty). -/
theorem claim_C2_amended :
    ∀ (aliveEnv : String → Int → Bool) (dialEnv : String → Int → Option Conn)
      (portOrd : String → List Int → List Int) (hostOrd : List String → List String)
      (network : String) (ports : List Int),
      (∀ l, (hostOrd l).Perm l) →
      (∀ ip, (portOrd ip ports).Perm ports) →
      ∀ ip, ip ∈ GenerateIPs network → PingHostFast aliveEnv ip = true →
        ((0 < (ports.filterMap (fun port =>
            let result := ScanPortFast dialEnv ip port
            if result.Open then some result else none)).length ∨ ports.length = 0) →
          ∃ h ∈ NetworkDiscovery aliveEnv dialEnv portOrd hostOrd network ports,
            h.IP = ip ∧ h.Alive = true ∧
            h.Ports.Perm (ports.filterMap (fun port =>
              let result := ScanPortFast dialEnv ip port
              if result.Open then some result else none))) ∧
        ((ports.filterMap (fun port =>
            let result := ScanPortFast dialEnv ip port
            if result.Open then some result else none)).length = 0 → ports.length ≠ 0 →
          ∀ h ∈ NetworkDiscovery aliveEnv dialEnv portOrd hostOrd network ports,
            h.IP ≠ ip) := by
  intro aliveEnv dialEnv portOrd hostOrd network ports hho hpo ip hip halive
  have hperm : ((portOrd ip ports).filterMap (fun port =>
      let result := ScanPortFast dialEnv ip port
      if result.Open then some result else none)).Perm
      (ports.filterMap (fun port =>
        let result := ScanPortFast dialEnv ip port
        if result.Open then some result else none)) :=
    (hpo ip).filterMap _
  constructor
  · intro hcond
    have hcond' : 0 < ((portOrd ip ports).filterMap (fun port =>
        let result := ScanPortFast dialEnv ip port
        if result.Open then some result else none)).length ∨ ports.length = 0 := by
      rw [hperm.length_eq]
      exact hcond
    have htask : hostTask aliveEnv dialEnv portOrd ports ip =
        some { IP := ip, Alive := true,
               Ports := (portOrd ip ports).filterMap (fun port =>
                 let result := ScanPortFast dialEnv ip port
                 if result.Open then some result else none) } :=
      (hostTask_some_iff aliveEnv dialEnv portOrd ports ip _).mpr ⟨halive, hcond', rfl⟩
    refine ⟨_, (mem_networkDiscovery_iff aliveEnv dialEnv portOrd hostOrd network ports
      hho _).mpr ⟨ip, hip, htask⟩, rfl, rfl, hperm⟩
  · intro hzero hne h hmem hipeq
    rcases (mem_networkDiscovery_iff aliveEnv dialEnv portOrd hostOrd network ports
      hho h).mp hmem with ⟨ip', _, htask⟩
    rcases (hostTask_some_iff aliveEnv dialEnv portOrd ports ip' h).mp htask with
      ⟨-, hcond, rfl⟩
    have : ip' = ip := hipeq
    subst this
    rcases hcond with hpos | hempty
    · rw [hperm.length_eq, hzero] at hpos
      exact absurd hpos (by omega)
    · exact hne hempty

/-- Witness for the amended claim C2: every port open on the alive host
10.0.0.1, so a HostOutcome for it must appear. -/
theorem claim_C2_witness :
    ((∀ l : List String, ((fun l => l) l : List String).Perm l) ∧
     (∀ ip : String, ((fun (_ : String) (l : List Int) => l) ip [80]).Perm [80]) ∧
     "10.0.0.1" ∈ GenerateIPs "10.0.0.0/24" ∧
     PingHostFast cexAlive "10.0.0.1" = true ∧
     0 < (([80] : List Int).filterMap (fun port =>
        let result := ScanPortFast cexDialAll "10.0.0.1" port
        if result.Open then some result else none)).length) ∧
    (∃ h ∈ NetworkDiscovery cexAlive cexDialAll (fun _ l => l) (fun l => l)
        "10.0.0.0/24" [80],
      h.IP = "10.0.0.1" ∧ h.Alive = true ∧
      h.Ports.Perm (([80] : List Int).filterMap (fun port =>
        let result := ScanPortFast cexDialAll "10.0.0.1" port
        if result.Open then some result else none))) :=
  ⟨⟨fun l => List.Perm.refl l, fun _ => List.Perm.refl _, by decide, by decide, by decide⟩,
   (claim_C2_amended cexAlive cexDialAll (fun _ l => l) (fun l => l) "10.0.0.0/24" [80]
      (fun l => List.Perm.refl l) (fun _ => List.Perm.refl _) "10.0.0.1"
      (by decide) (by decide)).1 (Or.inl (by decide))⟩

/-- Counterexample to claim C4 as stated: a combined-discovery run in which
the two open-port results of the only alive host complete in the order 80
then 22 returns that host with nested port list [80, 22], which is not
ascending by port number (the nested list is never re-sorted). -/
theorem claim_C4_counterexample :
    (((fun (_ : String) (l : List Int) => l.reverse) "10.0.0.1" [22, 80]).Perm [22, 80]) ∧
    (NetworkDiscovery cexAlive cexDialAll (fun _ l => l.reverse) (fun l => l)
        "10.0.0.0/24" [22, 80]).map (fun h => h.Ports.map (fun r => r.Port)) = [[80, 22]] ∧
    ¬ ((NetworkDiscovery cexAlive cexDialAll (fun _ l => l.reverse) (fun l => l)
        "10.0.0.0/24" [22, 80]).getD 0 default).Ports.Pairwise
        (fun a b => portLe a b = true) := by
  refine ⟨by decide, by decide, by decide⟩

/-- Claim C4 as amended: regardless of the order in which concurrent tasks
complete, the host lists returned by PingSweep and NetworkDiscovery are
sorted by the numeric dotted-quad comparator and the flat port list returned
by ScanPorts is sorted by ascending port number; the per-host nested port
lists of NetworkDiscovery, however, are returned in completion order and are
not sorted by the engine. -/
theorem claim_C4_amended :
    ∀ (aliveEnv : String → Int → Bool) (latEnv : String → Nat)
      (dialEnv : String → Int → Option Conn)
      (portOrd : String → List Int → List Int) (hostOrd : List String → List String)
      (ordH : List String → List String) (ordP : List Int → List Int)
      (network target : String) (ports : List Int),
      (PingSweep aliveEnv latEnv ordH network).Pairwise (fun a b => hostLe a b = true) ∧
      (ScanPorts dialEnv ordP target ports).Pairwise (fun a b => portLe a b = true) ∧
      (NetworkDiscovery aliveEnv dialEnv portOrd hostOrd network ports).Pairwise
        (fun a b => hostLe a b = true) := by
  intro aliveEnv latEnv dialEnv portOrd hostOrd ordH ordP network target ports
  refine ⟨?_, ?_, ?_⟩
  · exact pairwise_sortLe hostLe hostLe_total hostLe_trans _
  · exact pairwise_sortLe portLe portLe_total portLe_trans _
  · exact pairwise_sortLe hostLe hostLe_total hostLe_trans _

/-! ## Helper lemmas: list updates, counts and the scheduler invariant. -/

theorem getD_set_self {α : Type} (l : List α) (i : Nat) (a d : α) (h : i < l.length) :
    (l.set i a).getD i d = a := by
  induction l generalizing i with
  | nil => simp at h
  | cons b bs ih =>
      cases i with
      | zero => rfl
      | succ j =>
          simp only [List.set, List.getD_cons_succ]
          exact ih j (by simpa using h)

theorem getD_set_ne {α : Type} (l : List α) (i j : Nat) (a d : α) (h : i ≠ j) :
    (l.set i a).getD j d = l.getD j d := by
  induction l generalizing i j with
  | nil => simp
  | cons b bs ih =>
      cases i with
      | zero =>
          cases j with
          | zero => exact absurd rfl h
          | succ j' => rfl
      | succ i' =>
          cases j with
          | zero => rfl
          | succ j' =>
              simp only [List.set, List.getD_cons_succ]
              exact ih i' j' (fun he => h (by omega))

theorem countP_set_sum {α : Type} (p : α → Bool) (l : List α) (i : Nat) (a : α)
    (h : i < l.length) :
    (l.set i a).countP p + (if p (l.getD i a) then 1 else 0)
      = l.countP p + (if p a then 1 else 0) := by
  induction l generalizing i with
  | nil => simp at h
  | cons b bs ih =>
      cases i with
      | zero =>
          simp only [List.set, List.countP_cons, List.getD_cons_zero]
          omega
      | succ j =>
          simp only [List.set, List.countP_cons, List.getD_cons_succ]
          have := ih j (by simpa using h)
          omega

theorem getD_lt_length {α : Type} (l : List α) (i : Nat) (d : α)
    (h : l.getD i d ≠ d) : i < l.length := by
  by_contra hge
  push_neg at hge
  exact h (List.getD_eq_default l d hge)

theorem phaseAt_replicate (n i : Nat) (h : i < n) :
    phaseAt (schedInit n) i = Phase.notStarted := by
  unfold phaseAt schedInit
  induction n generalizing i with
  | zero => omega
  | succ m ih =>
      cases i with
      | zero => rfl
      | succ j =>
          simp only [List.replicate, List.getD_cons_succ]
          exact ih j (by omega)

theorem schedInv_init (cfg : SchedCfg) : SchedInv cfg (schedInit cfg.N) := by
  refine ⟨by simp [schedInit], ?_, by simp [schedInit], ?_, ?_, ?_⟩
  · have : runningCount (schedInit cfg.N).phase = 0 := by
      rw [runningCount, List.countP_eq_zero]
      intro p hp
      rw [List.eq_of_mem_replicate hp]
      simp
    omega
  · intro i _ hlt
    simp [schedInit] at hlt
  · intro i hi _
    exact phaseAt_replicate cfg.N i hi
  · intro i hi hrun
    rw [phaseAt_replicate cfg.N i hi] at hrun
    cases hrun

theorem schedInv_step (cfg : SchedCfg) (s : SchedState) (st : SchedStep)
    (hok : stepOk cfg s st = true) (hinv : SchedInv cfg s) :
    SchedInv cfg (applyStep s st) := by
  obtain ⟨hlen, hrc, hcur, hfin, hns, hrun⟩ := hinv
  cases st with
  | start i =>
      simp only [stepOk, Bool.and_eq_true, decide_eq_true_eq] at hok
      obtain ⟨⟨⟨hiN, hins⟩, hib⟩, hik⟩ := hok
      have hilen : i < s.phase.length := by
        rw [hlen]
        exact hiN
      have hcnt := countP_set_sum (fun p => decide (p = Phase.running)) s.phase i
        Phase.running hilen
      have hget : s.phase.getD i Phase.running = Phase.notStarted := by
        rw [List.getD_eq_getElem _ _ hilen]
        rw [phaseAt, List.getD_eq_getElem _ _ hilen] at hins
        exact hins
      rw [hget] at hcnt
      simp at hcnt
      show SchedInv cfg ⟨s.phase.set i Phase.running, s.cur⟩
      refine ⟨by simpa using hlen, ?_, hcur, ?_, ?_, ?_⟩
      · show runningCount (s.phase.set i Phase.running) ≤ cfg.K
        unfold runningCount at hik hrc ⊢
        omega
      · intro j hj hjb
        show phaseAt ⟨s.phase.set i Phase.running, s.cur⟩ j = Phase.finished
        unfold phaseAt
        rcases eq_or_ne i j with rfl | hne
        · have hjb2 : i / cfg.B < s.cur := hjb
          exact absurd hjb2 (by omega)
        · rw [getD_set_ne _ _ _ _ _ hne]
          exact hfin j hj hjb
      · intro j hj hjb
        show phaseAt ⟨s.phase.set i Phase.running, s.cur⟩ j = Phase.notStarted
        unfold phaseAt
        rcases eq_or_ne i j with rfl | hne
        · have hjb2 : s.cur < i / cfg.B := hjb
          exact absurd hjb2 (by omega)
        · rw [getD_set_ne _ _ _ _ _ hne]
          exact hns j hj hjb
      · intro j hj _
        rcases eq_or_ne i j with rfl | hne
        · exact hib
        · show _ = s.cur
          apply hrun j hj
          show phaseAt s j = Phase.running
          have : phaseAt ⟨s.phase.set i Phase.running, s.cur⟩ j = Phase.running := by
            assumption
          unfold phaseAt at this ⊢
          rw [getD_set_ne _ _ _ _ _ hne] at this
          exact this
  | finish i =>
      simp only [stepOk, Bool.and_eq_true, decide_eq_true_eq] at hok
      obtain ⟨hiN, hirun⟩ := hok
      have hilen : i < s.phase.length := by
        rw [hlen]
        exact hiN
      have hcnt := countP_set_sum (fun p => decide (p = Phase.running)) s.phase i
        Phase.finished hilen
      have hget : s.phase.getD i Phase.finished = Phase.running := by
        rw [List.getD_eq_getElem _ _ hilen]
        rw [phaseAt, List.getD_eq_getElem _ _ hilen] at hirun
        exact hirun
      rw [hget] at hcnt
      simp at hcnt
      show SchedInv cfg ⟨s.phase.set i Phase.finished, s.cur⟩
      refine ⟨by simpa using hlen, ?_, hcur, ?_, ?_, ?_⟩
      · show runningCount (s.phase.set i Phase.finished) ≤ cfg.K
        unfold runningCount at hrc ⊢
        omega
      · intro j hj hjb
        show phaseAt ⟨s.phase.set i Phase.finished, s.cur⟩ j = Phase.finished
        unfold phaseAt
        rcases eq_or_ne i j with rfl | hne
        · exact getD_set_self _ _ _ _ hilen
        · rw [getD_set_ne _ _ _ _ _ hne]
          exact hfin j hj hjb
      · intro j hj hjb
        show phaseAt ⟨s.phase.set i Phase.finished, s.cur⟩ j = Phase.notStarted
        unfold phaseAt
        rcases eq_or_ne i j with rfl | hne
        · have hjb2 : s.cur < i / cfg.B := hjb
          have heq := hrun i hj hirun
          exact absurd hjb2 (by omega)
        · rw [getD_set_ne _ _ _ _ _ hne]
          exact hns j hj hjb
      · intro j hj hjrun
        rcases eq_or_ne i j with rfl | hne
        · have : phaseAt ⟨s.phase.set i Phase.finished, s.cur⟩ i = Phase.finished := by
            unfold phaseAt
            exact getD_set_self _ _ _ _ hilen
          rw [this] at hjrun
          cases hjrun
        · apply hrun j hj
          unfold phaseAt at hjrun ⊢
          rw [getD_set_ne _ _ _ _ _ hne] at hjrun
          exact hjrun
  | advance =>
      simp only [stepOk, Bool.and_eq_true, decide_eq_true_eq] at hok
      obtain ⟨hlt, hall⟩ := hok
      show SchedInv cfg ⟨s.phase, s.cur + 1⟩
      refine ⟨hlen, hrc, show s.cur + 1 ≤ numBatches cfg by omega, ?_, ?_, ?_⟩
      · intro j hj hjb
        show phaseAt ⟨s.phase, s.cur + 1⟩ j = Phase.finished
        have hjb' : j / cfg.B < s.cur + 1 := hjb
        rcases Nat.lt_or_ge (j / cfg.B) s.cur with hlt' | hge
        · exact hfin j hj hlt'
        · have : j / cfg.B = s.cur := by omega
          exact hall j hj this
      · intro j hj hjb
        have : s.cur < j / cfg.B := by
          have : s.cur + 1 < j / cfg.B := hjb
          omega
        exact hns j hj this
      · intro j hj hjrun
        have hz : phaseAt s j = Phase.running := hjrun
        have := hrun j hj hz
        have := hall j hj this
        rw [hz] at this
        cases this

theorem schedInv_run (cfg : SchedCfg) :
    ∀ (tr : List SchedStep) (s s' : SchedState),
      runTrace cfg s tr = some s' → SchedInv cfg s → SchedInv cfg s' := by
  intro tr
  induction tr with
  | nil =>
      intro s s' hrun hinv
      simp only [runTrace, Option.some_inj] at hrun
      exact hrun ▸ hinv
  | cons st tr ih =>
      intro s s' hrun hinv
      simp only [runTrace] at hrun
      by_cases hok : stepOk cfg s st = true
      · rw [if_pos hok] at hrun
        exact ih _ _ hrun (schedInv_step cfg s st hok hinv)
      · rw [if_neg hok] at hrun
        cases hrun

theorem schedMeasure_step (cfg : SchedCfg) (s : SchedState) (st : SchedStep)
    (hok : stepOk cfg s st = true) (hlen : s.phase.length = cfg.N) :
    schedMeasure cfg (applyStep s st) < schedMeasure cfg s := by
  cases st with
  | start i =>
      simp only [stepOk, Bool.and_eq_true, decide_eq_true_eq] at hok
      obtain ⟨⟨⟨hiN, hins⟩, _⟩, _⟩ := hok
      have hilen : i < s.phase.length := by omega
      have hget : s.phase.getD i Phase.running = Phase.notStarted := by
        rw [List.getD_eq_getElem _ _ hilen]
        rw [phaseAt, List.getD_eq_getElem _ _ hilen] at hins
        exact hins
      have hr := countP_set_sum (fun p => decide (p = Phase.running)) s.phase i
        Phase.running hilen
      have hn := countP_set_sum (fun p => decide (p = Phase.notStarted)) s.phase i
        Phase.running hilen
      rw [hget] at hr hn
      simp at hr hn
      show schedMeasure cfg ⟨s.phase.set i Phase.running, s.cur⟩ < schedMeasure cfg s
      unfold schedMeasure runningCount
      simp only
      omega
  | finish i =>
      simp only [stepOk, Bool.and_eq_true, decide_eq_true_eq] at hok
      obtain ⟨hiN, hirun⟩ := hok
      have hilen : i < s.phase.length := by omega
      have hget : s.phase.getD i Phase.finished = Phase.running := by
        rw [List.getD_eq_getElem _ _ hilen]
        rw [phaseAt, List.getD_eq_getElem _ _ hilen] at hirun
        exact hirun
      have hr := countP_set_sum (fun p => decide (p = Phase.running)) s.phase i
        Phase.finished hilen
      have hn := countP_set_sum (fun p => decide (p = Phase.notStarted)) s.phase i
        Phase.finished hilen
      rw [hget] at hr hn
      simp at hr hn
      show schedMeasure cfg ⟨s.phase.set i Phase.finished, s.cur⟩ < schedMeasure cfg s
      unfold schedMeasure runningCount
      simp only
      omega
  | advance =>
      simp only [stepOk, Bool.and_eq_true, decide_eq_true_eq] at hok
      obtain ⟨hlt, -⟩ := hok
      show schedMeasure cfg ⟨s.phase, s.cur + 1⟩ < schedMeasure cfg s
      unfold schedMeasure
      simp only
      omega

theorem schedMeasure_run (cfg : SchedCfg) :
    ∀ (tr : List SchedStep) (s s' : SchedState),
      runTrace cfg s tr = some s' → SchedInv cfg s →
      tr.length + schedMeasure cfg s' ≤ schedMeasure cfg s := by
  intro tr
  induction tr with
  | nil =>
      intro s s' hrun _
      simp only [runTrace, Option.some_inj] at hrun
      subst hrun
      simp
  | cons st tr ih =>
      intro s s' hrun hinv
      simp only [runTrace] at hrun
      by_cases hok : stepOk cfg s st = true
      · rw [if_pos hok] at hrun
        have h1 := ih _ _ hrun (schedInv_step cfg s st hok hinv)
        have h2 := schedMeasure_step cfg s st hok hinv.1
        simp only [List.length_cons]
        omega
      · rw [if_neg hok] at hrun
        cases hrun

theorem phaseAt_applyStep_ne (s : SchedState) (st : SchedStep) (i : Nat)
    (hst : st ≠ SchedStep.start i) (hnf : st ≠ SchedStep.finish i) :
    phaseAt (applyStep s st) i = phaseAt s i := by
  cases st with
  | start j =>
      have hne : j ≠ i := fun he => hst (by rw [he])
      show (s.phase.set j Phase.running).getD i Phase.finished = phaseAt s i
      rw [getD_set_ne _ _ _ _ _ hne]
      rfl
  | finish j =>
      have hne : j ≠ i := fun he => hnf (by rw [he])
      show (s.phase.set j Phase.finished).getD i Phase.finished = phaseAt s i
      rw [getD_set_ne _ _ _ _ _ hne]
      rfl
  | advance => rfl

theorem phaseAt_set_finished (s : SchedState) (i : Nat) :
    phaseAt ⟨s.phase.set i Phase.finished, s.cur⟩ i = Phase.finished := by
  show (s.phase.set i Phase.finished).getD i Phase.finished = Phase.finished
  by_cases hj : i < s.phase.length
  · exact getD_set_self _ _ _ _ hj
  · push_neg at hj
    rw [List.getD_eq_default _ _ (by simpa using hj)]

theorem ns_persists (cfg : SchedCfg) (i : Nat) :
    ∀ (tr : List SchedStep) (s s' : SchedState),
      runTrace cfg s tr = some s' → phaseAt s i ≠ Phase.notStarted →
      phaseAt s' i ≠ Phase.notStarted ∧ countStarts i tr = 0 := by
  intro tr
  induction tr with
  | nil =>
      intro s s' hrun hne
      simp only [runTrace, Option.some_inj] at hrun
      subst hrun
      exact ⟨hne, rfl⟩
  | cons st tr ih =>
      intro s s' hrun hne
      simp only [runTrace] at hrun
      by_cases hok : stepOk cfg s st = true
      · rw [if_pos hok] at hrun
        have hst : st ≠ SchedStep.start i := by
          intro he
          subst he
          simp only [stepOk, Bool.and_eq_true, decide_eq_true_eq] at hok
          exact hne hok.1.1.2
        have hpres : phaseAt (applyStep s st) i ≠ Phase.notStarted := by
          by_cases hnf : st = SchedStep.finish i
          · subst hnf
            show phaseAt ⟨s.phase.set i Phase.finished, s.cur⟩ i ≠ Phase.notStarted
            rw [phaseAt_set_finished]
            intro hc
            cases hc
          · rw [phaseAt_applyStep_ne s st i hst hnf]
            exact hne
        have hrec := ih _ _ hrun hpres
        refine ⟨hrec.1, ?_⟩
        unfold countStarts at hrec ⊢
        rw [List.countP_cons, hrec.2]
        simp [hst]
      · rw [if_neg hok] at hrun
        cases hrun

theorem countStarts_le_one (cfg : SchedCfg) (i : Nat) :
    ∀ (tr : List SchedStep) (s s' : SchedState),
      runTrace cfg s tr = some s' → countStarts i tr ≤ 1 := by
  intro tr
  induction tr with
  | nil =>
      intro s s' _
      simp [countStarts]
  | cons st tr ih =>
      intro s s' hrun
      simp only [runTrace] at hrun
      by_cases hok : stepOk cfg s st = true
      · rw [if_pos hok] at hrun
        by_cases hst : st = SchedStep.start i
        · subst hst
          simp only [stepOk, Bool.and_eq_true, decide_eq_true_eq] at hok
          have hins : phaseAt s i = Phase.notStarted := hok.1.1.2
          have hilen : i < s.phase.length := by
            apply getD_lt_length s.phase i Phase.finished
            rw [phaseAt] at hins
            rw [hins]
            intro hc
            cases hc
          have hafter : phaseAt (applyStep s (SchedStep.start i)) i ≠ Phase.notStarted := by
            show (s.phase.set i Phase.running).getD i Phase.finished ≠ Phase.notStarted
            rw [getD_set_self _ _ _ _ hilen]
            intro hc
            cases hc
          have hzero := (ns_persists cfg i tr _ _ hrun hafter).2
          unfold countStarts at hzero ⊢
          rw [List.countP_cons]
          simp [hzero]
        · have hrec := ih _ _ hrun
          unfold countStarts at hrec ⊢
          rw [List.countP_cons]
          simp [hst]
          exact hrec
      · rw [if_neg hok] at hrun
        cases hrun

theorem ns_stays_without_start (cfg : SchedCfg) (i : Nat) :
    ∀ (tr : List SchedStep) (s s' : SchedState),
      runTrace cfg s tr = some s' → countStarts i tr = 0 →
      phaseAt s i = Phase.notStarted → phaseAt s' i = Phase.notStarted := by
  intro tr
  induction tr with
  | nil =>
      intro s s' hrun _ hns
      simp only [runTrace, Option.some_inj] at hrun
      subst hrun
      exact hns
  | cons st tr ih =>
      intro s s' hrun hcount hns
      simp only [runTrace] at hrun
      by_cases hok : stepOk cfg s st = true
      · rw [if_pos hok] at hrun
        have hst : st ≠ SchedStep.start i := by
          intro he
          subst he
          unfold countStarts at hcount
          rw [List.countP_cons] at hcount
          simp at hcount
        have hcount' : countStarts i tr = 0 := by
          unfold countStarts at hcount ⊢
          rw [List.countP_cons] at hcount
          omega
        have hnf : st ≠ SchedStep.finish i := by
          intro he
          subst he
          simp only [stepOk, Bool.and_eq_true, decide_eq_true_eq] at hok
          rw [hns] at hok
          cases hok.2
        have hpres : phaseAt (applyStep s st) i = Phase.notStarted := by
          rw [phaseAt_applyStep_ne s st i hst hnf]
          exact hns
        exact ih _ _ hrun hcount' hpres
      · rw [if_neg hok] at hrun
        cases hrun

theorem sched_progress (cfg : SchedCfg) (s : SchedState)
    (hK : 0 < cfg.K) (hB : 0 < cfg.B) (hinv : SchedInv cfg s)
    (hstuck : SchedStuck cfg s) :
    ∀ i, i < cfg.N → phaseAt s i = Phase.finished := by
  obtain ⟨hlen, hrc, hcur, hfin, hns, hrun⟩ := hinv
  have hnorun : ∀ j, j < cfg.N → phaseAt s j ≠ Phase.running := by
    intro j hj hrunj
    have hstep := hstuck (SchedStep.finish j)
    simp only [stepOk, Bool.and_eq_false_iff, decide_eq_false_iff_not] at hstep
    rcases hstep with h | h
    · exact h hj
    · exact h hrunj
  have hrc0 : runningCount s.phase = 0 := by
    rw [runningCount, List.countP_eq_zero]
    intro p hp
    rcases List.mem_iff_getElem.mp hp with ⟨j, hjlen, hjget⟩
    have hjN : j < cfg.N := by omega
    have : phaseAt s j = p := by
      rw [phaseAt, List.getD_eq_getElem _ _ hjlen]
      exact hjget
    simp only [decide_eq_true_eq]
    intro hpr
    exact hnorun j hjN (by rw [this, hpr])
  intro i hi
  by_contra hne
  have hnsi : phaseAt s i = Phase.notStarted := by
    cases hp : phaseAt s i with
    | notStarted => rfl
    | running => exact absurd hp (hnorun i hi)
    | finished => exact absurd hp hne
  have hcur_le : s.cur ≤ i / cfg.B := by
    by_contra hgt
    push_neg at hgt
    have := hfin i hi hgt
    rw [hnsi] at this
    cases this
  rcases eq_or_lt_of_le hcur_le with heq | hlt
  · have hstep := hstuck (SchedStep.start i)
    simp only [stepOk, Bool.and_eq_false_iff, decide_eq_false_iff_not] at hstep
    rcases hstep with ((h | h) | h) | h
    · exact h hi
    · exact h hnsi
    · exact h heq.symm
    · rw [hrc0] at h
      exact h hK
  · have hN1 : 1 ≤ cfg.N := by omega
    have hcurlt : s.cur < numBatches cfg := by
      have h1 : i / cfg.B < numBatches cfg := by
        unfold numBatches
        have he : cfg.N + cfg.B - 1 = (cfg.N - 1) + cfg.B := by omega
        rw [he, Nat.add_div_right _ hB]
        have h2 : i / cfg.B ≤ (cfg.N - 1) / cfg.B := Nat.div_le_div_right (by omega)
        omega
      omega
    have hallfin : ∀ j, j < cfg.N → j / cfg.B = s.cur → phaseAt s j = Phase.finished := by
      intro j hj hjb
      by_contra hjne
      have hjns : phaseAt s j = Phase.notStarted := by
        cases hp : phaseAt s j with
        | notStarted => rfl
        | running => exact absurd hp (hnorun j hj)
        | finished => exact absurd hp hjne
      have hstep := hstuck (SchedStep.start j)
      simp only [stepOk, Bool.and_eq_false_iff, decide_eq_false_iff_not] at hstep
      rcases hstep with ((h | h) | h) | h
      · exact h hj
      · exact h hjns
      · exact h hjb
      · rw [hrc0] at h
        exact h hK
    have hstep := hstuck SchedStep.advance
    simp only [stepOk, Bool.and_eq_false_iff, decide_eq_false_iff_not] at hstep
    rcases hstep with h | h
    · exact h hcurlt
    · exact h hallfin

theorem schedMeasure_init (cfg : SchedCfg) :
    schedMeasure cfg (schedInit cfg.N) = 2 * cfg.N + numBatches cfg := by
  unfold schedMeasure schedInit runningCount
  simp only
  have h1 : ∀ n, (List.replicate n Phase.notStarted).countP
      (fun p => decide (p = Phase.notStarted)) = n := by
    intro n
    induction n with
    | zero => rfl
    | succ m ih => simp [List.replicate, List.countP_cons, ih]
  have h2 : (List.replicate cfg.N Phase.notStarted).countP
      (fun p => decide (p = Phase.running)) = 0 := by
    rw [List.countP_eq_zero]
    intro p hp
    rw [List.eq_of_mem_replicate hp]
    simp
  rw [h1 cfg.N, h2]
  omega

/-- Claim C1: for every configuration of the batched bounded-concurrency
scheduler (N work items, positive in-flight cap K, positive batch size B,
the pattern instantiated by PingSweep with K=500, B=254, ScanPorts with
K=5000, B=1000 and NetworkDiscovery with K=100, B=50) and every
interleaving: at most K operations execute at any reachable instant; a
running item always belongs to the batch currently being drained, batches
before the current one are entirely finished and batches after it untouched
(so batch b+1 never starts before every operation of batch b has finished);
no item is ever started twice; every execution terminates within 2N + number
of batches steps; and when no step is enabled any more every item is
finished and was started exactly once. -/
theorem claim_C1_scheduler :
    ∀ (cfg : SchedCfg) (tr : List SchedStep) (s : SchedState),
      0 < cfg.K → 0 < cfg.B →
      runTrace cfg (schedInit cfg.N) tr = some s →
      (runningCount s.phase ≤ cfg.K ∧
       (∀ i, i < cfg.N → phaseAt s i = Phase.running → i / cfg.B = s.cur) ∧
       (∀ i, i < cfg.N → i / cfg.B < s.cur → phaseAt s i = Phase.finished) ∧
       (∀ i, i < cfg.N → s.cur < i / cfg.B → phaseAt s i = Phase.notStarted) ∧
       (∀ i, countStarts i tr ≤ 1) ∧
       tr.length ≤ 2 * cfg.N + numBatches cfg ∧
       (SchedStuck cfg s → ∀ i, i < cfg.N →
          phaseAt s i = Phase.finished ∧ countStarts i tr = 1)) := by
  intro cfg tr s hK hB hrun
  have hinv := schedInv_run cfg tr _ s hrun (schedInv_init cfg)
  obtain ⟨hlen, hrc, hcur, hfin, hns, hrunb⟩ := hinv
  refine ⟨hrc, hrunb, hfin, hns, ?_, ?_, ?_⟩
  · intro i
    exact countStarts_le_one cfg i tr _ s hrun
  · have := schedMeasure_run cfg tr _ s hrun (schedInv_init cfg)
    rw [schedMeasure_init] at this
    omega
  · intro hstuck i hi
    have hfin_i := sched_progress cfg s hK hB
      ⟨hlen, hrc, hcur, hfin, hns, hrunb⟩ hstuck i hi
    refine ⟨hfin_i, ?_⟩
    have hle := countStarts_le_one cfg i tr _ s hrun
    rcases Nat.eq_zero_or_pos (countStarts i tr) with hz | hpos
    · exfalso
      have := ns_stays_without_start cfg i tr _ s hrun hz
        (phaseAt_replicate cfg.N i hi)
      rw [hfin_i] at this
      cases this
    · omega

/-- Witness for claim C1: two items, cap 1, batch size 1, with the trace
that starts and finishes each item and advances between batches; the final
state has both items finished and is stuck. -/
theorem claim_C1_witness :
    (0 < (SchedCfg.mk 2 1 1).K ∧ 0 < (SchedCfg.mk 2 1 1).B ∧
     runTrace (SchedCfg.mk 2 1 1) (schedInit 2)
       [SchedStep.start 0, SchedStep.finish 0, SchedStep.advance,
        SchedStep.start 1, SchedStep.finish 1, SchedStep.advance] =
       some (SchedState.mk [Phase.finished, Phase.finished] 2)) ∧
    (runningCount (SchedState.mk [Phase.finished, Phase.finished] 2).phase ≤ 1 ∧
     ([SchedStep.start 0, SchedStep.finish 0, SchedStep.advance,
       SchedStep.start 1, SchedStep.finish 1, SchedStep.advance] :
         List SchedStep).length ≤ 2 * 2 + numBatches (SchedCfg.mk 2 1 1) ∧
     (∀ i, i < 2 → phaseAt (SchedState.mk [Phase.finished, Phase.finished] 2) i =
        Phase.finished ∧
        countStarts i [SchedStep.start 0, SchedStep.finish 0, SchedStep.advance,
          SchedStep.start 1, SchedStep.finish 1, SchedStep.advance] = 1)) := by
  have happ := claim_C1_scheduler (SchedCfg.mk 2 1 1)
    [SchedStep.start 0, SchedStep.finish 0, SchedStep.advance,
     SchedStep.start 1, SchedStep.finish 1, SchedStep.advance]
    (SchedState.mk [Phase.finished, Phase.finished] 2)
    (by decide) (by decide) (by decide)
  have hstuck : SchedStuck (SchedCfg.mk 2 1 1)
      (SchedState.mk [Phase.finished, Phase.finished] 2) := by
    intro st
    cases st with
    | start i =>
        have hph : phaseAt (SchedState.mk [Phase.finished, Phase.finished] 2) i =
            Phase.finished := by
          show ([Phase.finished, Phase.finished] : List Phase).getD i Phase.finished =
            Phase.finished
          rcases i with _ | _ | j <;> rfl
        simp [stepOk, hph]
    | finish i =>
        have hph : phaseAt (SchedState.mk [Phase.finished, Phase.finished] 2) i =
            Phase.finished := by
          show ([Phase.finished, Phase.finished] : List Phase).getD i Phase.finished =
            Phase.finished
          rcases i with _ | _ | j <;> rfl
        simp [stepOk, hph]
    | advance => decide
  exact ⟨⟨by decide, by decide, by decide⟩,
    happ.1, happ.2.2.2.2.2.1, happ.2.2.2.2.2.2 hstuck⟩
